import Mathlib

set_option maxRecDepth 100000

/-!
Verification of the node-caskdb storage engine (multi-segment version of
src/db.ts, together with src/encoding.ts) against its natural-language
specification.  Byte buffers are modelled as lists of naturals, JavaScript
strings as their UTF-8 byte sequences, and the float64 timestamp field by
its 64-bit pattern (writeDoubleLE / readDoubleLE are bit-preserving).
-/

namespace CaskDB

/-- A byte buffer (Node Buffer) or a JS string via its UTF-8 bytes. -/
abbrev Bytes := List Nat

/-- Little-endian encoding of n into w bytes, as Buffer.writeUIntLE does
(values are reduced modulo 2 pow (8 w), matching the machine overflow). -/
def toLE : Nat → Nat → Bytes
  | 0, _ => []
  | w + 1, n => n % 256 :: toLE w (n / 256)

/-- Little-endian read of w bytes of buf starting at off; missing bytes
read as 0 (Buffer.alloc zero-fills). -/
def readLE (buf : Bytes) : Nat → Nat → Nat
  | _, 0 => 0
  | off, w + 1 => buf.getD off 0 + 256 * readLE buf (off + 1) w

/-- Sliced view buf.toString(utf8, a, b): bytes in positions a to b-1. -/
def slice (buf : Bytes) (a b : Nat) : Bytes :=
  (buf.drop a).take (b - a)

/-- HEADER_SIZE from encoding.ts. -/
def HEADER_SIZE : Nat := 16

/-- Decoded record, type KeyValue of encoding.ts.  The timestamp is the
64-bit pattern of the float64 field. -/
structure KeyValue where
  timestamp : Nat
  key : Bytes
  value : Bytes
  deriving DecidableEq

/-- encodeHeader of encoding.ts: float64 timestamp then two uint32 sizes,
all little-endian, 16 bytes in total. -/
def encodeHeader (ts ks vs : Nat) : Bytes :=
  toLE 8 ts ++ toLE 4 ks ++ toLE 4 vs

/-- decodeHeader of encoding.ts: reads the three header fields at off. -/
def decodeHeader (buf : Bytes) (off : Nat) : Nat × Nat × Nat :=
  (readLE buf off 8, readLE buf (off + 8) 4, readLE buf (off + 12) 4)

/-- encodeKV of encoding.ts: header, then the key bytes, then the value
bytes, in a buffer of exactly 16 + key length + value length bytes. -/
def encodeKV (ts : Nat) (k v : Bytes) : Bytes :=
  encodeHeader ts k.length v.length ++ k ++ v

/-- decodeKV of encoding.ts.  Faithful to the source: the header is read
at off, but the key and value are sliced at absolute positions
HEADER_SIZE and HEADER_SIZE + kSize, ignoring off. -/
def decodeKV (buf : Bytes) (off : Nat) : KeyValue :=
  let ts := readLE buf off 8
  let ks := readLE buf (off + 8) 4
  let vs := readLE buf (off + 12) 4
  { timestamp := ts
    key := slice buf HEADER_SIZE (HEADER_SIZE + ks)
    value := slice buf (HEADER_SIZE + ks) (HEADER_SIZE + ks + vs) }

theorem toLE_length (w n : Nat) : (toLE w n).length = w := by
  induction w generalizing n with
  | zero => rfl
  | succ w ih => simp [toLE, ih]

theorem readLE_cons_succ (x : Nat) (l : Bytes) (off w : Nat) :
    readLE (x :: l) (off + 1) w = readLE l off w := by
  induction w generalizing off with
  | zero => rfl
  | succ w ih =>
    simp only [readLE, List.getD_cons_succ]
    rw [ih (off + 1)]

theorem readLE_append (xs l : Bytes) (off w : Nat) :
    readLE (xs ++ l) (xs.length + off) w = readLE l off w := by
  induction xs with
  | nil => simp
  | cons x xs ih =>
    have : (x :: xs).length + off = (xs.length + off) + 1 := by
      simp [List.length_cons]; omega
    rw [this, List.cons_append, readLE_cons_succ, ih]

theorem readLE_toLE (w n : Nat) (rest : Bytes) (h : n < 256 ^ w) :
    readLE (toLE w n ++ rest) 0 w = n := by
  induction w generalizing n with
  | zero => simp at h; simp [readLE, h]
  | succ w ih =>
    have hdiv : n / 256 < 256 ^ w := by
      rw [Nat.div_lt_iff_lt_mul (by norm_num : 0 < 256)]
      calc n < 256 ^ (w + 1) := h
        _ = 256 ^ w * 256 := by ring
    simp only [toLE, List.cons_append, readLE, List.getD_cons_zero]
    rw [readLE_cons_succ, ih _ hdiv]
    exact Nat.mod_add_div n 256

/-- The encoded record has length 16 + key length + value length
(spec P6, invariant R1). -/
theorem encodeKV_length (ts : Nat) (k v : Bytes) :
    (encodeKV ts k v).length = 16 + k.length + v.length := by
  simp [encodeKV, encodeHeader, toLE_length]; omega

theorem readLE_enc_ts (ts : Nat) (k v rest : Bytes) (hts : ts < 2 ^ 64) :
    readLE (encodeKV ts k v ++ rest) 0 8 = ts := by
  have heq : encodeKV ts k v ++ rest
      = toLE 8 ts ++ (toLE 4 k.length ++ (toLE 4 v.length ++ (k ++ (v ++ rest)))) := by
    simp [encodeKV, encodeHeader, List.append_assoc]
  rw [heq]
  exact readLE_toLE 8 ts _ (by norm_num at hts ⊢; omega)

theorem readLE_enc_ks (ts : Nat) (k v rest : Bytes) (hk : k.length < 2 ^ 32) :
    readLE (encodeKV ts k v ++ rest) 8 4 = k.length := by
  have heq : encodeKV ts k v ++ rest
      = toLE 8 ts ++ (toLE 4 k.length ++ (toLE 4 v.length ++ (k ++ (v ++ rest)))) := by
    simp [encodeKV, encodeHeader, List.append_assoc]
  rw [heq]
  have h := readLE_append (toLE 8 ts)
    (toLE 4 k.length ++ (toLE 4 v.length ++ (k ++ (v ++ rest)))) 0 4
  rw [toLE_length] at h
  simp only [Nat.add_zero] at h
  rw [h]
  exact readLE_toLE 4 k.length _ (by norm_num at hk ⊢; omega)

theorem readLE_enc_vs (ts : Nat) (k v rest : Bytes) (hv : v.length < 2 ^ 32) :
    readLE (encodeKV ts k v ++ rest) 12 4 = v.length := by
  have heq : encodeKV ts k v ++ rest
      = (toLE 8 ts ++ toLE 4 k.length) ++ (toLE 4 v.length ++ (k ++ (v ++ rest))) := by
    simp [encodeKV, encodeHeader, List.append_assoc]
  rw [heq]
  have h := readLE_append (toLE 8 ts ++ toLE 4 k.length)
    (toLE 4 v.length ++ (k ++ (v ++ rest))) 0 4
  have hlen : (toLE 8 ts ++ toLE 4 k.length).length = 12 := by
    simp [toLE_length]
  rw [hlen] at h
  simp only [Nat.add_zero] at h
  rw [h]
  exact readLE_toLE 4 v.length _ (by norm_num at hv ⊢; omega)

theorem decodeHeader_encodeKV (ts : Nat) (k v : Bytes) (rest : Bytes)
    (hts : ts < 2 ^ 64) (hk : k.length < 2 ^ 32) (hv : v.length < 2 ^ 32) :
    decodeHeader (encodeKV ts k v ++ rest) 0 = (ts, k.length, v.length) := by
  unfold decodeHeader
  rw [show (0 : Nat) + 8 = 8 by omega, show (0 : Nat) + 12 = 12 by omega,
    readLE_enc_ts ts k v rest hts, readLE_enc_ks ts k v rest hk,
    readLE_enc_vs ts k v rest hv]

/-- Round trip of the codec at offset zero: decoding an encoded record
placed at the start of a buffer recovers timestamp, key and value. -/
theorem decodeKV_encodeKV (ts : Nat) (k v : Bytes) (rest : Bytes)
    (hts : ts < 2 ^ 64) (hk : k.length < 2 ^ 32) (hv : v.length < 2 ^ 32) :
    decodeKV (encodeKV ts k v ++ rest) 0 = ⟨ts, k, v⟩ := by
  have hts' : readLE (encodeKV ts k v ++ rest) 0 8 = ts :=
    readLE_enc_ts ts k v rest hts
  have hks : readLE (encodeKV ts k v ++ rest) (0 + 8) 4 = k.length := by
    simpa using readLE_enc_ks ts k v rest hk
  have hvs : readLE (encodeKV ts k v ++ rest) (0 + 12) 4 = v.length := by
    simpa using readLE_enc_vs ts k v rest hv
  have hsplit : encodeKV ts k v ++ rest
      = (encodeHeader ts k.length v.length) ++ (k ++ (v ++ rest)) := by
    simp [encodeKV, List.append_assoc]
  have hhead : (encodeHeader ts k.length v.length).length = 16 := by
    simp [encodeHeader, toLE_length]
  have hkey : slice (encodeKV ts k v ++ rest) HEADER_SIZE (HEADER_SIZE + k.length) = k := by
    rw [hsplit]
    unfold slice HEADER_SIZE
    rw [show (16 : Nat) = (encodeHeader ts k.length v.length).length from hhead.symm]
    rw [List.drop_left]
    have : (encodeHeader ts k.length v.length).length + k.length
        - (encodeHeader ts k.length v.length).length = k.length := by omega
    rw [this, List.take_left' rfl]
  have hval : slice (encodeKV ts k v ++ rest)
      (HEADER_SIZE + k.length) (HEADER_SIZE + k.length + v.length) = v := by
    have hsplit2 : encodeKV ts k v ++ rest
        = (encodeHeader ts k.length v.length ++ k) ++ (v ++ rest) := by
      simp [encodeKV, List.append_assoc]
    rw [hsplit2]
    unfold slice HEADER_SIZE
    have hlen2 : (encodeHeader ts k.length v.length ++ k).length = 16 + k.length := by
      simp [hhead]
    rw [show 16 + k.length = (encodeHeader ts k.length v.length ++ k).length from hlen2.symm]
    rw [List.drop_left]
    have : (encodeHeader ts k.length v.length ++ k).length + v.length
        - (encodeHeader ts k.length v.length ++ k).length = v.length := by omega
    rw [this, List.take_left' rfl]
  unfold decodeKV
  simp only [hts', hks, hvs, hkey, hval]

/-- The tombstone marker: UTF-8 bytes of U+1F4A9, written by remove and
compared against by replay. -/
def tombstone : Bytes := [240, 159, 146, 169]

/-- Key directory entry, type KeyEntry of db.ts (multi-segment version):
segment file name, byte offset of the record, record length, timestamp. -/
structure KeyEntry where
  filename : Bytes
  position : Nat
  size : Nat
  timestamp : Nat
  deriving DecidableEq

/-- The in-memory key directory: a JS Map as an insertion-ordered
association list with unique keys. -/
abbrev KeyDir := List (Bytes × KeyEntry)

/-- Map.get: value of the first (only) entry with this key. -/
def mapGet : KeyDir → Bytes → Option KeyEntry
  | [], _ => none
  | p :: rest, k => if p.1 = k then some p.2 else mapGet rest k

/-- Map.has. -/
def mapHas (m : KeyDir) (k : Bytes) : Bool :=
  (mapGet m k).isSome

/-- Map.set: update the existing entry in place (insertion order kept),
else append at the end. -/
def mapSet : KeyDir → Bytes → KeyEntry → KeyDir
  | [], k, e => [(k, e)]
  | p :: rest, k, e => if p.1 = k then (k, e) :: rest else p :: mapSet rest k e

/-- Map.delete: remove the entry with this key if present. -/
def mapDelete : KeyDir → Bytes → KeyDir
  | [], _ => []
  | p :: rest, k => if p.1 = k then rest else p :: mapDelete rest k

/-- The database directory on disk: file name to contents, in creation
order. -/
abbrev Files := List (Bytes × Bytes)

/-- Contents of a named file, if present. -/
def lookupFile : Files → Bytes → Option Bytes
  | [], _ => none
  | p :: rest, n => if p.1 = n then some p.2 else lookupFile rest n

/-- Contents of a named file, empty when absent. -/
def fileGet (fs : Files) (n : Bytes) : Bytes :=
  (lookupFile fs n).getD []

/-- Opening a file in append mode creates it empty when missing. -/
def ensureFile (fs : Files) (n : Bytes) : Files :=
  if (lookupFile fs n).isSome then fs else fs ++ [(n, [])]

/-- An append-mode write: bytes always go to the end of the file
(created first when missing). -/
def fileAppend : Files → Bytes → Bytes → Files
  | [], n, d => [(n, d)]
  | p :: rest, n, d =>
    if p.1 = n then (p.1, p.2 ++ d) :: rest else p :: fileAppend rest n d

/-- fs.rm for each name in the list. -/
def fileRemove (fs : Files) (names : List Bytes) : Files :=
  fs.filter fun p => decide (p.1 ∉ names)

/-- A read of len bytes at position pos into a zero-filled buffer of
length len: the available bytes followed by the untouched zero fill. -/
def readPadded (file : Bytes) (pos len : Nat) : Bytes :=
  let r := (file.drop pos).take len
  r ++ List.replicate (len - r.length) 0

/-- Number of bytes such a read actually delivers. -/
def bytesReadOf (file : Bytes) (pos len : Nat) : Nat :=
  min len (file.length - pos)

/-- Decimal digits, little-endian; empty for 0.  The first argument is
fuel, always sufficient when it is at least the number itself. -/
def digitsLEAux : Nat → Nat → List Nat
  | _, 0 => []
  | 0, _ + 1 => []
  | fuel + 1, n + 1 => (n + 1) % 10 :: digitsLEAux fuel ((n + 1) / 10)

/-- Decimal digits of n, little-endian; empty for 0. -/
def digitsLE (n : Nat) : List Nat :=
  digitsLEAux n n

/-- counter.toString() for a positive counter: big-endian decimal ASCII. -/
def decimalAscii (n : Nat) : Bytes :=
  (digitsLE n).reverse.map (· + 48)

/-- padStart(5, "0"). -/
def padTo5 (l : Bytes) : Bytes :=
  List.replicate (5 - l.length) 48 ++ l

/-- Segment file name for counter n: zero-padded decimal followed by
.dat, as built in openCask, set and nextLogFileName. -/
def natName (n : Nat) : Bytes :=
  padTo5 (decimalAscii n) ++ [46, 100, 97, 116]

/-- Character class of the replay filter regex: 0-9 or a-z. -/
def isLowerAlnum (c : Nat) : Bool :=
  (48 ≤ c && c ≤ 57) || (97 ≤ c && c ≤ 122)

/-- Five leading characters all in the class. -/
def startsRun5 : Bytes → Bool
  | a :: b :: c :: d :: e :: _ =>
    isLowerAlnum a && isLowerAlnum b && isLowerAlnum c && isLowerAlnum d && isLowerAlnum e
  | _ => false

/-- The unanchored test of the regex used by openCask: true when the name
contains five consecutive characters in 0-9a-z anywhere; the .dat suffix
is never required. -/
def hasRun5 : Bytes → Bool
  | [] => false
  | a :: rest => startsRun5 (a :: rest) || hasRun5 rest

/-- JS string comparison used by Array.prototype.sort on names. -/
def lexLe : Bytes → Bytes → Bool
  | [], _ => true
  | _ :: _, [] => false
  | a :: as, b :: bs => if a < b then true else if b < a then false else lexLe as bs

/-- The ordering relation behind lexLe. -/
def LexLe (a b : Bytes) : Prop := lexLe a b = true

instance : DecidableRel LexLe := fun a b => by unfold LexLe; infer_instance

/-- readdir(...).sort(). -/
def sortNames (l : List Bytes) : List Bytes :=
  List.insertionSort LexLe l

/-- Engine state captured by the closure of openCask: maxLogSize, the
directory contents on disk, the sealed list _casks, the active segment
name currentCask, the write cursor and the key directory. -/
structure CaskState where
  maxLogSize : Nat
  files : Files
  casks : List Bytes
  currentCask : Bytes
  cursor : Nat
  keyDir : KeyDir
  deriving DecidableEq

/-- The body of the replay loop of _load: walk the buffer from offset,
stopping at a torn header or torn record.  The fuel argument only bounds
the recursion; every record is at least 16 bytes, so fuel bytesRead is
always sufficient. -/
def loadWalk (buffer : Bytes) (bytesRead : Nat) (filename : Bytes) :
    Nat → KeyDir → Nat → KeyDir
  | 0, kd, _ => kd
  | fuel + 1, kd, offset =>
    if bytesRead - offset < 16 then kd
    else
      let ks := readLE buffer (offset + 8) 4
      let vs := readLE buffer (offset + 12) 4
      if bytesRead - offset < 16 + ks + vs then kd
      else
        let key := slice buffer (offset + 16) (offset + 16 + ks)
        let value := slice buffer (offset + 16 + ks) (offset + 16 + ks + vs)
        let kd' :=
          if value = tombstone ∧ mapHas kd key then mapDelete kd key
          else mapSet kd key
            { filename := filename, position := offset, size := 16 + ks + vs
              timestamp := readLE buffer offset 8 }
        loadWalk buffer bytesRead filename fuel kd' (offset + (16 + ks + vs))

/-- _load of db.ts: read up to maxLogSize bytes of the file into a
zero-filled buffer and replay the records against the key directory. -/
def loadFile (maxLogSize : Nat) (kd : KeyDir) (filename contents : Bytes) : KeyDir :=
  let buffer := readPadded contents 0 maxLogSize
  let bytesRead := min maxLogSize contents.length
  if bytesRead = 0 then kd else loadWalk buffer bytesRead filename bytesRead kd 0

/-- openCask of db.ts: validate maxLogSize, list and sort the directory,
derive the active segment name from the total entry count, create it,
then replay every entry whose name passes the regex test. -/
def openCask (dir : Files) (maxLogSize : Nat) : Option CaskState :=
  if maxLogSize < 1024 ∨ 16384 < maxLogSize then none
  else
    let casks := sortNames (dir.map (·.1))
    let currentCask := natName (casks.length + 1)
    let files := ensureFile dir currentCask
    let keyDir := casks.foldl
      (fun kd c => if hasRun5 c then loadFile maxLogSize kd c (fileGet files c) else kd) []
    some { maxLogSize := maxLogSize, files := files, casks := casks
           currentCask := currentCask, cursor := 0, keyDir := keyDir }

/-- A default state so that concrete scenarios can use openCask total. -/
def emptyState : CaskState :=
  { maxLogSize := 4096, files := [], casks := [], currentCask := []
    cursor := 0, keyDir := [] }

/-- openCask for concrete scenarios with a valid maxLogSize. -/
def openD (dir : Files) (maxLogSize : Nat) : CaskState :=
  (openCask dir maxLogSize).getD emptyState

/-- get of db.ts: look the key up, read the record at its locator into a
zero-filled buffer of the recorded size, decode it, return the value. -/
def get (s : CaskState) (key : Bytes) : Option Bytes :=
  (mapGet s.keyDir key).map fun e =>
    (decodeKV (readPadded (fileGet s.files e.filename) e.position e.size) 0).value

/-- The rollover branch of set: when appending len more bytes would
exceed maxLogSize, close the active segment into _casks, derive the next
active name from the new _casks length, open it and reset the cursor. -/
def rollIfNeeded (s : CaskState) (len : Nat) : CaskState :=
  if s.cursor + len > s.maxLogSize then
    let casks := s.casks ++ [s.currentCask]
    let cur := natName (casks.length + 1)
    { s with casks := casks, currentCask := cur
             files := ensureFile s.files cur, cursor := 0 }
  else s

/-- set of db.ts: roll the active segment over when the record would not
fit, append, then update directory and cursor. -/
def set (s : CaskState) (key value : Bytes) (ts : Nat) : CaskState :=
  let data := encodeKV ts key value
  let s1 := rollIfNeeded s data.length
  { s1 with
    files := fileAppend s1.files s1.currentCask data
    keyDir := mapSet s1.keyDir key
      { filename := s1.currentCask, position := s1.cursor
        size := data.length, timestamp := ts }
    cursor := s1.cursor + data.length }

/-- remove of db.ts (the public delete): append a tombstone record to the
active segment with no rollover check, drop the key, advance the cursor. -/
def remove (s : CaskState) (key : Bytes) (ts : Nat) : CaskState :=
  let data := encodeKV ts key tombstone
  { s with
    files := fileAppend s.files s.currentCask data
    keyDir := mapDelete s.keyDir key
    cursor := s.cursor + data.length }

/-- listKeys of db.ts: the directory keys in insertion order. -/
def listKeys (s : CaskState) : List Bytes :=
  s.keyDir.map (·.1)

/-- Where an I/O failure is injected in the write path of set or remove:
at the write call, at the sync call, or nowhere. -/
inductive FailPoint where
  | atWrite
  | atSync
  | noFail
  deriving DecidableEq

/-- set of db.ts with an injected I/O failure.  The Bool is false when
the call raised.  Mutations already performed before the failing call
(the whole rollover branch; for a sync failure also the appended bytes)
persist in the closure state, exactly as in the source. -/
def setF (s : CaskState) (key value : Bytes) (ts : Nat) (fp : FailPoint) :
    CaskState × Bool :=
  let data := encodeKV ts key value
  let s1 := rollIfNeeded s data.length
  match fp with
  | .atWrite => (s1, false)
  | .atSync => ({ s1 with files := fileAppend s1.files s1.currentCask data }, false)
  | .noFail =>
    ({ s1 with
       files := fileAppend s1.files s1.currentCask data
       keyDir := mapSet s1.keyDir key
         { filename := s1.currentCask, position := s1.cursor
           size := data.length, timestamp := ts }
       cursor := s1.cursor + data.length }, true)

/-- remove of db.ts with an injected I/O failure, as setF. -/
def removeF (s : CaskState) (key : Bytes) (ts : Nat) (fp : FailPoint) :
    CaskState × Bool :=
  let data := encodeKV ts key tombstone
  match fp with
  | .atWrite => (s, false)
  | .atSync => ({ s with files := fileAppend s.files s.currentCask data }, false)
  | .noFail =>
    ({ s with
       files := fileAppend s.files s.currentCask data
       keyDir := mapDelete s.keyDir key
       cursor := s.cursor + data.length }, true)

/-- Accumulator of the merge loop: the directory contents, the counter
captured by nextLogFileName, the cursor of the current output segment
and the key directory being rewritten. -/
structure MAcc where
  files : Files
  counter : Nat
  cursor : Nat
  keyDir : KeyDir
  deriving DecidableEq

/-- One iteration of the merge loop of db.ts: read the full record at the
entry's locator into a zero-filled buffer (the buffer and the count of
bytes actually read are both taken from the pre-rollover disk state, as
in the source where they are computed before the size check), roll the
output segment over when the bytes read would not fit, append the buffer
(append mode writes at end of file) and repoint the directory entry. -/
def mergeStep (maxLogSize : Nat) (acc : MAcc) (p : Bytes × KeyEntry) : MAcc :=
  if acc.cursor + bytesReadOf (fileGet acc.files p.2.filename) p.2.position p.2.size
      > maxLogSize then
    { files := fileAppend (ensureFile acc.files (natName (acc.counter + 1)))
        (natName (acc.counter + 1))
        (readPadded (fileGet acc.files p.2.filename) p.2.position p.2.size)
      counter := acc.counter + 1
      cursor := 0 + (readPadded (fileGet acc.files p.2.filename)
        p.2.position p.2.size).length
      keyDir := mapSet acc.keyDir p.1
        { filename := natName (acc.counter + 1), position := 0
          size := (readPadded (fileGet acc.files p.2.filename)
            p.2.position p.2.size).length
          timestamp := p.2.timestamp } }
  else
    { files := fileAppend acc.files (natName acc.counter)
        (readPadded (fileGet acc.files p.2.filename) p.2.position p.2.size)
      counter := acc.counter
      cursor := acc.cursor + (readPadded (fileGet acc.files p.2.filename)
        p.2.position p.2.size).length
      keyDir := mapSet acc.keyDir p.1
        { filename := natName acc.counter, position := acc.cursor
          size := (readPadded (fileGet acc.files p.2.filename)
            p.2.position p.2.size).length
          timestamp := p.2.timestamp } }

/-- The accumulator at the start of the merge loop: the first output
segment is opened with id oldFiles.length + 1 and cursor 0. -/
def mergeAcc0 (s : CaskState) : MAcc :=
  { files := ensureFile s.files (natName ((s.casks ++ [s.currentCask]).length + 1))
    counter := (s.casks ++ [s.currentCask]).length + 1
    cursor := 0
    keyDir := s.keyDir }

/-- The accumulator after the merge loop has rewritten every entry. -/
def mergeAccOf (s : CaskState) : MAcc :=
  s.keyDir.foldl (mergeStep s.maxLogSize) (mergeAcc0 s)

/-- merge of db.ts.  Faithful to the source: _casks is never updated and
_cursor is never reset, so the sealed list and the write cursor still
hold their pre-merge values afterwards; the old segment files are
unlinked and one further segment is opened as the new active one. -/
def merge (s : CaskState) : CaskState :=
  { s with
    files := ensureFile (fileRemove (mergeAccOf s).files (s.casks ++ [s.currentCask]))
      (natName ((mergeAccOf s).counter + 1))
    currentCask := natName ((mergeAccOf s).counter + 1)
    keyDir := (mergeAccOf s).keyDir }

/-- Correspondence between a pre-merge key directory entry p and its
post-merge rewrite q: same key, q points into a merge output segment
(name of index in the open range above oldLen, at most counter) at a
range lying inside the file, and the bytes at that range are exactly
the bytes the merge loop read at the old locator. -/
def mergeRel (srcFiles : Files) (oldLen : Nat) (files : Files) (counter : Nat)
    (p q : Bytes × KeyEntry) : Prop :=
  q.1 = p.1
  ∧ (∃ m, oldLen < m ∧ m ≤ counter ∧ q.2.filename = natName m)
  ∧ q.2.position + q.2.size ≤ (fileGet files q.2.filename).length
  ∧ slice (fileGet files q.2.filename) q.2.position (q.2.position + q.2.size)
      = readPadded (fileGet srcFiles p.2.filename) p.2.position p.2.size

/-! Concrete scenario states used by the claim theorems. -/

/-- The UTF-8 bytes of the key foo. -/
def keyFoo : Bytes := [102, 111, 111]

/-- Session one of the C1 scenario: a fresh database on which only
delete(foo) is executed. -/
def sC1Before : CaskState := remove (openD [] 1024) keyFoo 5

/-- Reopening the directory left behind by sC1Before. -/
def sC1After : CaskState := openD sC1Before.files 1024

/-- An engine state with the active segment nearly full: cursor at 1020
of a 1024-byte limit. -/
def sNearFull : CaskState :=
  { maxLogSize := 1024
    files := [(natName 1, List.replicate 1020 7)]
    casks := []
    currentCask := natName 1
    cursor := 1020
    keyDir := [] }

/-- A pre-merge engine state: sealed segment 00001.dat holding the live
record of key k1, active segment 00002.dat nearly full. -/
def sPreMerge : CaskState :=
  { maxLogSize := 1024
    files := [(natName 1, encodeKV 5 [107, 49] [118, 49]),
              (natName 2, List.replicate 1010 7)]
    casks := [natName 1]
    currentCask := natName 2
    cursor := 1010
    keyDir := [([107, 49],
      { filename := natName 1, position := 0
        size := (encodeKV 5 [107, 49] [118, 49]).length, timestamp := 5 })] }

/-- An engine state whose directory entry for foo points 90 bytes past
the end of its 10-byte segment file. -/
def sDangling : CaskState :=
  { maxLogSize := 4096
    files := [(natName 1, List.replicate 10 1)]
    casks := []
    currentCask := natName 2
    cursor := 0
    keyDir := [(keyFoo, { filename := natName 1, position := 100, size := 22, timestamp := 0 })] }

/-! Helper lemmas about zero buffers. -/

theorem getD_replicate_zero (n i : Nat) : (List.replicate n 0).getD i 0 = 0 := by
  induction n generalizing i with
  | zero => simp
  | succ n ih =>
    cases i with
    | zero => simp [List.replicate]
    | succ i => simp only [List.replicate, List.getD_cons_succ]; exact ih i

theorem readLE_replicate_zero (n off w : Nat) :
    readLE (List.replicate n 0) off w = 0 := by
  induction w generalizing off with
  | zero => rfl
  | succ w ih => simp [readLE, getD_replicate_zero, ih]

/-! The claim theorems. -/

/-- C1: the persistence claim (spec P3) fails on the code.  Evaluating
the engine at the failing input: a fresh database on which only
delete(foo) runs answers get(foo) with not-found before close, but after
close and reopen the replay of the lone tombstone record inserts foo
into the key directory, so get(foo) returns the tombstone string. -/
theorem c1_persistence_failing_input_eval :
    get sC1Before keyFoo = none ∧ get sC1After keyFoo = some tombstone := by
  constructor
  · decide
  · decide

/-- C2: during replay a tombstone record whose key is absent from the
directory is not a no-op: the guard requires the key to be present, and
otherwise execution falls through to the insert, so the key is inserted
pointing at the tombstone record.  Evaluating replay on a segment whose
only record is a tombstone for foo: the key ends up present and get
returns the tombstone marker instead of not-found. -/
theorem c2_tombstone_replay_failing_input_eval :
    mapGet (openD [(natName 1, encodeKV 7 keyFoo tombstone)] 1024).keyDir keyFoo
      = some { filename := natName 1, position := 0, size := 23, timestamp := 7 }
    ∧ get (openD [(natName 1, encodeKV 7 keyFoo tombstone)] 1024) keyFoo
      = some tombstone := by
  constructor
  · decide
  · decide

/-- C3: delete does not use the rollover logic of set.  Evaluating remove
on a state with cursor 1020 of a 1024-byte limit: the 23-byte tombstone
is appended to the same active segment with no rollover, leaving a
1043-byte active file; a later set then seals that oversized segment,
violating the claimed bound on sealed segments. -/
theorem c3_delete_no_rollover_failing_input_eval :
    (remove sNearFull keyFoo 5).currentCask = sNearFull.currentCask
    ∧ (remove sNearFull keyFoo 5).casks = sNearFull.casks
    ∧ (fileGet (remove sNearFull keyFoo 5).files (natName 1)).length = 1043
    ∧ (set (remove sNearFull keyFoo 5) [107] [118] 9).casks = [natName 1] := by
  refine ⟨by decide, by decide, by decide, by decide⟩

/-- C4: after merge the sealed list _casks still holds its pre-merge
value, so the next rollover recomputes the active name from a stale
count and assigns a name that already exists.  Evaluating on a two
segment state: merge outputs 00003.dat (live data) and actives
00004.dat; one further set rolls over and reopens 00003.dat, an
existing nonempty merge output, as the active segment, while the sealed
list now holds 00004.dat, a strictly higher id than the active one. -/
theorem c4_segment_name_reuse_failing_input_eval :
    (merge sPreMerge).currentCask = natName 4
    ∧ (lookupFile (merge sPreMerge).files (natName 3)).isSome = true
    ∧ (fileGet (merge sPreMerge).files (natName 3)).length = 20
    ∧ (set (merge sPreMerge) [107, 50] [118, 50] 9).currentCask = natName 3
    ∧ natName 4 ∈ (set (merge sPreMerge) [107, 50] [118, 50] 9).casks := by
  refine ⟨by decide, by decide, by decide, by decide, by decide⟩

/-- C5 counterexample: merge does not keep the number of segment files
from growing.  On a freshly opened empty database there is one segment
file before merge and two after (the empty merge output plus the new
active segment), refuting the claimed post is less or equal to pre. -/
theorem c5_merge_filecount_counterexample :
    (openD [] 1024).files.length = 1 ∧ (merge (openD [] 1024)).files.length = 2 := by
  constructor
  · decide
  · decide

/-- C6 counterexample: a locator pointing past end-of-file does not make
get fail.  Evaluating get on a state whose entry for foo points 90 bytes
past the end of its segment: the read returns no bytes, the zero-filled
buffer decodes to empty key and value, and get returns the empty string
as a fabricated value instead of an internal-consistency error. -/
theorem c6_get_past_eof_counterexample :
    get sDangling keyFoo = some [] := by
  decide

/-- C6 (amended): get performs no end-of-file validation.  For every
state and key whose locator names an existing segment file but points
at or past its end, get returns the value decoded from an untouched
zero-filled buffer, which is the empty string. -/
theorem c6_get_past_eof_returns_empty (s : CaskState) (k : Bytes) (e : KeyEntry)
    (hfind : mapGet s.keyDir k = some e)
    (_hex : (lookupFile s.files e.filename).isSome = true)
    (hpast : (fileGet s.files e.filename).length ≤ e.position) :
    get s k = some [] := by
  unfold get
  rw [hfind]
  simp only [Option.map_some']
  have hdrop : (fileGet s.files e.filename).drop e.position = [] :=
    List.drop_eq_nil_of_le hpast
  have hbuf : readPadded (fileGet s.files e.filename) e.position e.size
      = List.replicate e.size 0 := by
    unfold readPadded
    rw [hdrop]
    simp
  rw [hbuf]
  unfold decodeKV
  simp [readLE_replicate_zero, slice]

/-- Witness for c6_get_past_eof_returns_empty at the sDangling state. -/
theorem c6_get_past_eof_returns_empty_witness :
    get sDangling keyFoo = some [] :=
  c6_get_past_eof_returns_empty sDangling keyFoo
    { filename := natName 1, position := 100, size := 22, timestamp := 0 }
    (by decide) (by decide) (by decide)

/-- Rollover never touches the key directory. -/
theorem rollIfNeeded_keyDir (s : CaskState) (len : Nat) :
    (rollIfNeeded s len).keyDir = s.keyDir := by
  unfold rollIfNeeded
  split <;> rfl

/-- Rollover is the identity when the record still fits. -/
theorem rollIfNeeded_of_fits (s : CaskState) (len : Nat)
    (h : s.cursor + len ≤ s.maxLogSize) :
    rollIfNeeded s len = s := by
  unfold rollIfNeeded
  rw [if_neg (by omega)]

/-- C7 counterexample: on the rollover path a failing write does not
leave the cursor as it was.  With cursor 1020 of a 1024-byte limit, a
set whose write raises has already sealed the segment and reset the
cursor to 0, and the active segment name has changed. -/
theorem c7_rollover_failure_counterexample :
    (setF sNearFull [107] [118] 3 FailPoint.atWrite).2 = false
    ∧ (setF sNearFull [107] [118] 3 FailPoint.atWrite).1.cursor = 0
    ∧ sNearFull.cursor = 1020
    ∧ (setF sNearFull [107] [118] 3 FailPoint.atWrite).1.currentCask
        ≠ sNearFull.currentCask := by
  refine ⟨by decide, by decide, by decide, by decide⟩

/-- C7 (amended): when the write or the sync of set raises, the error
propagates and the key directory is never advanced; on the non-rollover
path the cursor, active segment name and sealed list are exactly
preserved, but on the rollover path the seal-and-reopen transition has
already happened before the failing call.  For remove (delete), which
has no rollover branch, a failing write or sync preserves the cursor,
the directory, the active name and the sealed list exactly. -/
theorem c7_failed_write_preserves_engine_state (s : CaskState)
    (key value : Bytes) (ts : Nat) (fp : FailPoint)
    (hfp : fp ≠ FailPoint.noFail) :
    ((setF s key value ts fp).2 = false
      ∧ (setF s key value ts fp).1.keyDir = s.keyDir
      ∧ (s.cursor + (encodeKV ts key value).length ≤ s.maxLogSize →
          (setF s key value ts fp).1.cursor = s.cursor
          ∧ (setF s key value ts fp).1.currentCask = s.currentCask
          ∧ (setF s key value ts fp).1.casks = s.casks))
    ∧ ((removeF s key ts fp).2 = false
      ∧ (removeF s key ts fp).1.keyDir = s.keyDir
      ∧ (removeF s key ts fp).1.cursor = s.cursor
      ∧ (removeF s key ts fp).1.currentCask = s.currentCask
      ∧ (removeF s key ts fp).1.casks = s.casks) := by
  cases fp with
  | noFail => exact absurd rfl hfp
  | atWrite =>
    refine ⟨⟨rfl, rollIfNeeded_keyDir s _, fun h => ?_⟩, rfl, rfl, rfl, rfl, rfl⟩
    rw [show (setF s key value ts FailPoint.atWrite).1
        = rollIfNeeded s (encodeKV ts key value).length from rfl]
    rw [rollIfNeeded_of_fits s _ h]
    exact ⟨rfl, rfl, rfl⟩
  | atSync =>
    refine ⟨⟨rfl, rollIfNeeded_keyDir s _, fun h => ?_⟩, rfl, rfl, rfl, rfl, rfl⟩
    have hr : (setF s key value ts FailPoint.atSync).1.cursor
        = (rollIfNeeded s (encodeKV ts key value).length).cursor := rfl
    rw [hr, rollIfNeeded_of_fits s _ h]
    exact ⟨rfl, by
      have : (setF s key value ts FailPoint.atSync).1.currentCask
          = (rollIfNeeded s (encodeKV ts key value).length).currentCask := rfl
      rw [this, rollIfNeeded_of_fits s _ h], by
      have : (setF s key value ts FailPoint.atSync).1.casks
          = (rollIfNeeded s (encodeKV ts key value).length).casks := rfl
      rw [this, rollIfNeeded_of_fits s _ h]⟩

/-- Witness for c7_failed_write_preserves_engine_state: a failing sync
on a fitting record leaves the engine state of a concrete small state
untouched. -/
theorem c7_failed_write_preserves_engine_state_witness :
    (setF (openD [] 1024) [107] [118] 3 FailPoint.atSync).1.keyDir
        = (openD [] 1024).keyDir
    ∧ (setF (openD [] 1024) [107] [118] 3 FailPoint.atSync).1.cursor
        = (openD [] 1024).cursor :=
  have h := c7_failed_write_preserves_engine_state (openD [] 1024) [107] [118] 3
    FailPoint.atSync (by decide)
  ⟨h.1.2.1, ((h.1.2.2 (by decide)).1)⟩

/-- C8 counterexample: the codec is not self-inverse at nonzero offsets.
Writing a record at offset 16 of a buffer and decoding at offset 16
reads the header correctly but slices the key at absolute position 16,
inside the record's own header, returning the wrong key. -/
theorem c8_decode_offset_counterexample :
    decodeKV (List.replicate 16 0 ++ encodeKV 1 [97, 98] [99]) 16
      ≠ ({ timestamp := 1, key := [97, 98], value := [99] } : KeyValue) := by
  decide

/-- C8 (amended): the round trip holds at offset 0 only: decoding an
encoded record placed at the start of the buffer returns exactly the
timestamp pattern, key and value. -/
theorem c8_roundtrip_at_offset_zero (ts : Nat) (k v : Bytes)
    (hts : ts < 2 ^ 64) (hk : k.length < 2 ^ 32) (hv : v.length < 2 ^ 32) :
    decodeKV (encodeKV ts k v) 0 = ⟨ts, k, v⟩ := by
  have h := decodeKV_encodeKV ts k v [] hts hk hv
  rw [List.append_nil] at h
  exact h

/-- Witness for c8_roundtrip_at_offset_zero on a concrete record. -/
theorem c8_roundtrip_at_offset_zero_witness :
    decodeKV (encodeKV 1 [97, 98] [99]) 0 = ⟨1, [97, 98], [99]⟩ :=
  c8_roundtrip_at_offset_zero 1 [97, 98] [99] (by norm_num) (by norm_num) (by norm_num)

/-! Order theory for the name sort of openCask. -/

theorem lexLe_nil_left (b : Bytes) : lexLe [] b = true := by
  cases b <;> rfl

theorem lexLe_cons_nil (x : Nat) (xs : Bytes) : lexLe (x :: xs) [] = false := rfl

theorem lexLe_cons_cons (x y : Nat) (xs ys : Bytes) :
    lexLe (x :: xs) (y :: ys)
      = if x < y then true else if y < x then false else lexLe xs ys := rfl

theorem lexLe_total : ∀ a b : Bytes, LexLe a b ∨ LexLe b a := by
  intro a
  induction a with
  | nil => intro b; left; exact lexLe_nil_left b
  | cons x xs ih =>
    intro b
    cases b with
    | nil => right; exact lexLe_nil_left _
    | cons y ys =>
      rcases Nat.lt_trichotomy x y with h | h | h
      · left; unfold LexLe; rw [lexLe_cons_cons, if_pos h]
      · subst h
        rcases ih ys with h2 | h2
        · left; unfold LexLe at h2 ⊢
          rw [lexLe_cons_cons, if_neg (Nat.lt_irrefl x), if_neg (Nat.lt_irrefl x)]
          exact h2
        · right; unfold LexLe at h2 ⊢
          rw [lexLe_cons_cons, if_neg (Nat.lt_irrefl x), if_neg (Nat.lt_irrefl x)]
          exact h2
      · right; unfold LexLe; rw [lexLe_cons_cons, if_pos h]

theorem lexLe_trans : ∀ a b c : Bytes, LexLe a b → LexLe b c → LexLe a c := by
  intro a
  induction a with
  | nil => intro b c _ _; exact lexLe_nil_left c
  | cons x xs ih =>
    intro b c hab hbc
    cases b with
    | nil => rw [LexLe, lexLe_cons_nil] at hab; cases hab
    | cons y ys =>
      cases c with
      | nil => rw [LexLe, lexLe_cons_nil] at hbc; cases hbc
      | cons z zs =>
        rw [LexLe, lexLe_cons_cons] at hab hbc ⊢
        by_cases hxy : x < y
        · by_cases hyz : y < z
          · rw [if_pos (Nat.lt_trans hxy hyz)]
          · rw [if_neg hyz] at hbc
            by_cases hzy : z < y
            · rw [if_pos hzy] at hbc; cases hbc
            · have : y = z := by omega
              subst this
              rw [if_pos hxy]
        · rw [if_neg hxy] at hab
          by_cases hyx : y < x
          · rw [if_pos hyx] at hab; cases hab
          · have hxeq : x = y := by omega
            subst hxeq
            rw [if_neg hyx] at hab
            by_cases hyz : x < z
            · rw [if_pos hyz]
            · rw [if_neg hyz] at hbc ⊢
              by_cases hzy : z < x
              · rw [if_pos hzy] at hbc; cases hbc
              · rw [if_neg hzy] at hbc ⊢
                exact ih ys zs hab hbc

theorem lexLe_antisymm : ∀ a b : Bytes, LexLe a b → LexLe b a → a = b := by
  intro a
  induction a with
  | nil =>
    intro b _ hba
    cases b with
    | nil => rfl
    | cons y ys => rw [LexLe, lexLe_cons_nil] at hba; cases hba
  | cons x xs ih =>
    intro b hab hba
    cases b with
    | nil => rw [LexLe, lexLe_cons_nil] at hab; cases hab
    | cons y ys =>
      rw [LexLe, lexLe_cons_cons] at hab hba
      by_cases hxy : x < y
      · rw [if_neg (Nat.lt_asymm hxy), if_pos hxy] at hba; cases hba
      · rw [if_neg hxy] at hab
        by_cases hyx : y < x
        · rw [if_pos hyx] at hab; cases hab
        · have hxeq : x = y := by omega
          subst hxeq
          rw [if_neg hyx] at hab
          rw [if_neg hyx, if_neg hyx] at hba
          rw [ih ys hab hba]

/-! Lemmas about directory lookup and the replay fold. -/

theorem lookupFile_nil (n : Bytes) : lookupFile [] n = none := rfl

theorem lookupFile_cons (p : Bytes × Bytes) (rest : Files) (n : Bytes) :
    lookupFile (p :: rest) n = if p.1 = n then some p.2 else lookupFile rest n := rfl

theorem lookupFile_append_some (a b : Files) (n v : Bytes)
    (h : lookupFile a n = some v) : lookupFile (a ++ b) n = some v := by
  induction a with
  | nil => rw [lookupFile_nil] at h; cases h
  | cons p rest ih =>
    rw [lookupFile_cons] at h
    rw [List.cons_append, lookupFile_cons]
    by_cases hp : p.1 = n
    · rw [if_pos hp] at h ⊢; exact h
    · rw [if_neg hp] at h ⊢; exact ih h

theorem lookupFile_append_none (a b : Files) (n : Bytes)
    (h : lookupFile a n = none) : lookupFile (a ++ b) n = lookupFile b n := by
  induction a with
  | nil => rfl
  | cons p rest ih =>
    rw [lookupFile_cons] at h
    rw [List.cons_append, lookupFile_cons]
    by_cases hp : p.1 = n
    · rw [if_pos hp] at h; cases h
    · rw [if_neg hp] at h ⊢; exact ih h

theorem lookupFile_isSome_of_mem (fs : Files) (n : Bytes)
    (h : n ∈ fs.map (·.1)) : (lookupFile fs n).isSome := by
  induction fs with
  | nil => simp at h
  | cons p rest ih =>
    rw [lookupFile_cons]
    by_cases hp : p.1 = n
    · rw [if_pos hp]; rfl
    · rw [if_neg hp]
      apply ih
      simp only [List.map_cons, List.mem_cons] at h
      rcases h with h | h
      · exact absurd h.symm hp
      · exact h

theorem fileGet_ensure_of_isSome (fs : Files) (n c : Bytes)
    (h : (lookupFile fs c).isSome) : fileGet (ensureFile fs n) c = fileGet fs c := by
  unfold ensureFile
  split
  · rfl
  · obtain ⟨v, hv⟩ := Option.isSome_iff_exists.mp h
    unfold fileGet
    rw [hv, lookupFile_append_some fs _ c v hv]

theorem lookupFile_middle (d1 d2 : Files) (f : Bytes × Bytes) (c : Bytes)
    (hne : c ≠ f.1) :
    lookupFile (d1 ++ [f] ++ d2) c = lookupFile (d1 ++ d2) c := by
  rw [List.append_assoc]
  cases h : lookupFile d1 c with
  | some v => rw [lookupFile_append_some _ _ _ _ h, lookupFile_append_some _ _ _ _ h]
  | none =>
    rw [lookupFile_append_none _ _ _ h, lookupFile_append_none _ _ _ h]
    rw [List.singleton_append, lookupFile_cons, if_neg (fun he => hne he.symm)]

theorem foldl_if_filter {β : Type} (g : β → Bytes → β) (p : Bytes → Bool) :
    ∀ (l : List Bytes) (a : β),
      l.foldl (fun b c => if p c then g b c else b) a = (l.filter p).foldl g a := by
  intro l
  induction l with
  | nil => intro a; rfl
  | cons x xs ih =>
    intro a
    by_cases hp : p x <;> simp [List.filter_cons, hp, ih]

theorem foldl_congr_mem {β : Type} (g1 g2 : β → Bytes → β) :
    ∀ (l : List Bytes) (a : β), (∀ c ∈ l, ∀ b, g1 b c = g2 b c) →
      l.foldl g1 a = l.foldl g2 a := by
  intro l
  induction l with
  | nil => intro a _; rfl
  | cons x xs ih =>
    intro a h
    simp only [List.foldl_cons]
    rw [h x (by simp), ih _ (fun c hc b => h c (by simp [hc]) b)]

/-- The state produced by a successful openCask, spelled out. -/
theorem openD_valid (dir : Files) (m : Nat) (hm1 : 1024 ≤ m) (hm2 : m ≤ 16384) :
    openD dir m =
      { maxLogSize := m
        files := ensureFile dir (natName ((sortNames (dir.map (·.1))).length + 1))
        casks := sortNames (dir.map (·.1))
        currentCask := natName ((sortNames (dir.map (·.1))).length + 1)
        cursor := 0
        keyDir := (sortNames (dir.map (·.1))).foldl
          (fun kd c => if hasRun5 c then loadFile m kd c
            (fileGet (ensureFile dir
              (natName ((sortNames (dir.map (·.1))).length + 1))) c) else kd) [] } := by
  unfold openD openCask
  rw [if_neg (by omega)]
  rfl

/-- C9 counterexample: openCask neither restricts replay to names of the
form five alphanumerics followed by .dat nor derives the active id from
the count of such names.  A directory holding only the foreign file A
yields active segment 00002.dat although it contains zero segment files
(the claim requires 00001.dat), and a directory holding only the file
named notes, with no .dat suffix, has its contents replayed into the
key directory. -/
theorem c9_foreign_file_counterexample :
    (openD [([65], [1, 2, 3])] 4096).currentCask = natName 2
    ∧ natName 2 ≠ natName 1
    ∧ get (openD [([110, 111, 116, 101, 115], encodeKV 7 keyFoo [118])] 4096) keyFoo
        = some [118] := by
  refine ⟨by decide, by decide, by decide⟩

/-- Projection of openD_valid to the key directory. -/
theorem openD_keyDir (dir : Files) (m : Nat) (hm1 : 1024 ≤ m) (hm2 : m ≤ 16384) :
    (openD dir m).keyDir = (sortNames (dir.map (·.1))).foldl
      (fun kd c => if hasRun5 c then loadFile m kd c
        (fileGet (ensureFile dir
          (natName ((sortNames (dir.map (·.1))).length + 1))) c) else kd) [] := by
  rw [openD_valid dir m hm1 hm2]

/-- Projection of openD_valid to the active segment name. -/
theorem openD_currentCask (dir : Files) (m : Nat) (hm1 : 1024 ≤ m) (hm2 : m ≤ 16384) :
    (openD dir m).currentCask = natName (dir.length + 1) := by
  rw [openD_valid dir m hm1 hm2]
  show natName ((sortNames (dir.map (·.1))).length + 1) = natName (dir.length + 1)
  unfold sortNames
  rw [List.length_insertionSort, List.length_map]

/-- C9 (amended): a directory entry whose name fails the unanchored
regex test (no run of five characters in 0-9a-z anywhere) is never
replayed, but it is still counted: inserting such an entry anywhere in
the directory leaves the replayed key directory unchanged while the new
active segment id is derived from the total entry count plus one. -/
theorem c9_open_foreign_entry (d1 d2 : Files) (f : Bytes × Bytes) (m : Nat)
    (hm1 : 1024 ≤ m) (hm2 : m ≤ 16384) (hreg : hasRun5 f.1 = false) :
    (openD (d1 ++ [f] ++ d2) m).keyDir = (openD (d1 ++ d2) m).keyDir
    ∧ (openD (d1 ++ [f] ++ d2) m).currentCask
        = natName ((d1 ++ [f] ++ d2).length + 1) := by
  haveI instTot : IsTotal Bytes LexLe := ⟨lexLe_total⟩
  haveI instTrans : IsTrans Bytes LexLe := ⟨fun a b c => lexLe_trans a b c⟩
  haveI instAnti : IsAntisymm Bytes LexLe := ⟨fun a b => lexLe_antisymm a b⟩
  refine ⟨?_, openD_currentCask _ m hm1 hm2⟩
  rw [openD_keyDir _ m hm1 hm2, openD_keyDir _ m hm1 hm2]
  rw [foldl_if_filter, foldl_if_filter]
  have hmid : ((d1 ++ [f] ++ d2).map (fun p => p.1)).filter hasRun5
      = ((d1 ++ d2).map (fun p => p.1)).filter hasRun5 := by
    simp only [List.map_append, List.filter_append, List.map_cons, List.map_nil]
    rw [show List.filter hasRun5 [f.1] = [] from by simp [hreg]]
    simp
  have h1 : List.Perm ((sortNames ((d1 ++ [f] ++ d2).map (fun p => p.1))).filter hasRun5)
      (((d1 ++ [f] ++ d2).map (fun p => p.1)).filter hasRun5) :=
    (List.perm_insertionSort LexLe _).filter _
  have h3 : List.Perm (((d1 ++ d2).map (fun p => p.1)).filter hasRun5)
      ((sortNames ((d1 ++ d2).map (fun p => p.1))).filter hasRun5) :=
    ((List.perm_insertionSort LexLe _).filter _).symm
  have hs1 : List.Sorted LexLe
      ((sortNames ((d1 ++ [f] ++ d2).map (fun p => p.1))).filter hasRun5) :=
    List.Sorted.filter _ (List.sorted_insertionSort LexLe _)
  have hs2 : List.Sorted LexLe
      ((sortNames ((d1 ++ d2).map (fun p => p.1))).filter hasRun5) :=
    List.Sorted.filter _ (List.sorted_insertionSort LexLe _)
  have hfilter : (sortNames ((d1 ++ [f] ++ d2).map (fun p => p.1))).filter hasRun5
      = (sortNames ((d1 ++ d2).map (fun p => p.1))).filter hasRun5 :=
    @List.eq_of_perm_of_sorted Bytes LexLe instAnti _ _
      ((h1.trans (hmid ▸ List.Perm.refl _)).trans h3) hs1 hs2
  rw [hfilter]
  apply foldl_congr_mem
  intro c hc kd
  have hrun : hasRun5 c = true := List.of_mem_filter hc
  have hcmem : c ∈ ((d1 ++ d2).map (·.1) |> sortNames) := List.mem_of_mem_filter hc
  have hcnames : c ∈ (d1 ++ d2).map (·.1) :=
    (List.perm_insertionSort LexLe _).subset hcmem
  have hne : c ≠ f.1 := fun he => by rw [he] at hrun; rw [hrun] at hreg; cases hreg
  have hsomeSmall : (lookupFile (d1 ++ d2) c).isSome :=
    lookupFile_isSome_of_mem _ _ hcnames
  have hlookups : lookupFile (d1 ++ [f] ++ d2) c = lookupFile (d1 ++ d2) c :=
    lookupFile_middle d1 d2 f c hne
  have hsomeBig : (lookupFile (d1 ++ [f] ++ d2) c).isSome := by
    rw [hlookups]; exact hsomeSmall
  rw [fileGet_ensure_of_isSome _ _ _ hsomeBig, fileGet_ensure_of_isSome _ _ _ hsomeSmall]
  unfold fileGet
  rw [hlookups]

/-! Lemmas for reasoning about replay on oversized segments. -/

theorem mapGet_nil (k : Bytes) : mapGet [] k = none := rfl

theorem mapGet_cons (p : Bytes × KeyEntry) (rest : KeyDir) (k : Bytes) :
    mapGet (p :: rest) k = if p.1 = k then some p.2 else mapGet rest k := rfl

theorem mapGet_cons_self (a : Bytes) (e : KeyEntry) (rest : KeyDir) :
    mapGet ((a, e) :: rest) a = some e := by
  rw [mapGet_cons, if_pos rfl]

theorem lookupFile_cons_ne (a b c : Bytes) (rest : Files) (h : ¬ a = c) :
    lookupFile ((a, b) :: rest) c = lookupFile rest c := by
  rw [lookupFile_cons]
  exact if_neg h

theorem lookupFile_cons_self (a b : Bytes) (rest : Files) :
    lookupFile ((a, b) :: rest) a = some b := by
  rw [lookupFile_cons, if_pos rfl]

theorem getD_take (l : Bytes) (n i : Nat) (h : i < n) :
    (l.take n).getD i 0 = l.getD i 0 := by
  induction l generalizing n i with
  | nil => simp
  | cons x xs ih =>
    cases n with
    | zero => omega
    | succ n =>
      cases i with
      | zero => simp
      | succ i =>
        simp only [List.take_succ_cons, List.getD_cons_succ]
        exact ih n i (by omega)

theorem readLE_take (l : Bytes) (n off w : Nat) (h : off + w ≤ n) :
    readLE (l.take n) off w = readLE l off w := by
  induction w generalizing off with
  | zero => rfl
  | succ w ih =>
    simp only [readLE]
    rw [getD_take l n off (by omega), ih (off + 1) (by omega)]

/-- The replay walk stops immediately (dropping the rest of the buffer)
when the record announced by the header at offset does not fit in the
bytes read: the torn-record case of _load. -/
theorem loadWalk_torn (buffer : Bytes) (bytesRead : Nat) (fn : Bytes)
    (fuel : Nat) (kd : KeyDir) (offset : Nat) (hfuel : 0 < fuel)
    (h16 : ¬ bytesRead - offset < 16)
    (htorn : bytesRead - offset
      < 16 + readLE buffer (offset + 8) 4 + readLE buffer (offset + 12) 4) :
    loadWalk buffer bytesRead fn fuel kd offset = kd := by
  cases fuel with
  | zero => omega
  | succ f =>
    simp only [loadWalk]
    rw [if_neg h16, if_pos (by omega)]

/-- Replaying an empty segment file is a no-op. -/
theorem loadFile_empty (m : Nat) (kd : KeyDir) (fn : Bytes) :
    loadFile m kd fn [] = kd := by
  simp [loadFile]

/-- C10: there is no upper bound on a single record at the write path.
For every key and value whose record exceeds max_log_size, set on a
fresh database succeeds: it rolls the empty first segment over and
appends the whole record to the new active segment 00002.dat, whose
file is then larger than max_log_size, and get returns the value.  But
replay reads at most max_log_size bytes of a segment, so after close
and reopen the record fails the complete-entry check, is treated as
torn and dropped, and get returns not-found. -/
theorem c10_oversized_record_lost_on_reopen (max ts : Nat) (k v : Bytes)
    (hm1 : 1024 ≤ max) (hm2 : max ≤ 16384)
    (hbig : max < 16 + k.length + v.length)
    (hts : ts < 2 ^ 64) (hk : k.length < 2 ^ 32) (hv : v.length < 2 ^ 32) :
    get (set (openD [] max) k v ts) k = some v
    ∧ max < (fileGet (set (openD [] max) k v ts).files
        (set (openD [] max) k v ts).currentCask).length
    ∧ (set (openD [] max) k v ts).casks = [natName 1]
    ∧ (set (openD [] max) k v ts).currentCask = natName 2
    ∧ get (openD (set (openD [] max) k v ts).files max) k = none := by
  have hdata : (encodeKV ts k v).length = 16 + k.length + v.length :=
    encodeKV_length ts k v
  have hopen : openD [] max
      = ⟨max, [(natName 1, [])], [], natName 1, 0, []⟩ := by
    rw [openD_valid [] max hm1 hm2]
    rfl
  have hroll : rollIfNeeded ⟨max, [(natName 1, [])], [], natName 1, 0, []⟩
        (encodeKV ts k v).length
      = ⟨max, [(natName 1, []), (natName 2, [])], [natName 1], natName 2, 0, []⟩ := by
    unfold rollIfNeeded
    rw [if_pos (show (0 : Nat) + (encodeKV ts k v).length > max by omega)]
    show (⟨max, ensureFile [(natName 1, [])] (natName 2), [natName 1],
      natName 2, 0, []⟩ : CaskState) = _
    rfl
  have hset : set (openD [] max) k v ts
      = ⟨max, [(natName 1, []), (natName 2, encodeKV ts k v)], [natName 1], natName 2,
         0 + (encodeKV ts k v).length,
         [(k, ⟨natName 2, 0, (encodeKV ts k v).length, ts⟩)]⟩ := by
    rw [hopen]
    show ({ rollIfNeeded ⟨max, [(natName 1, [])], [], natName 1, 0, []⟩
        (encodeKV ts k v).length with
      files := fileAppend (rollIfNeeded ⟨max, [(natName 1, [])], [], natName 1, 0, []⟩
          (encodeKV ts k v).length).files
        (rollIfNeeded ⟨max, [(natName 1, [])], [], natName 1, 0, []⟩
          (encodeKV ts k v).length).currentCask (encodeKV ts k v)
      keyDir := mapSet (rollIfNeeded ⟨max, [(natName 1, [])], [], natName 1, 0, []⟩
          (encodeKV ts k v).length).keyDir k
        { filename := (rollIfNeeded ⟨max, [(natName 1, [])], [], natName 1, 0, []⟩
            (encodeKV ts k v).length).currentCask
          position := (rollIfNeeded ⟨max, [(natName 1, [])], [], natName 1, 0, []⟩
            (encodeKV ts k v).length).cursor
          size := (encodeKV ts k v).length, timestamp := ts }
      cursor := (rollIfNeeded ⟨max, [(natName 1, [])], [], natName 1, 0, []⟩
          (encodeKV ts k v).length).cursor + (encodeKV ts k v).length } : CaskState) = _
    rw [hroll]
    rfl
  have hfileGet : fileGet [(natName 1, []), (natName 2, encodeKV ts k v)] (natName 2)
      = encodeKV ts k v := by
    unfold fileGet
    rw [lookupFile_cons_ne (natName 1) [] (natName 2) _ (by decide),
      lookupFile_cons_self]
    rfl
  have hrp : readPadded (encodeKV ts k v) 0 (encodeKV ts k v).length
      = encodeKV ts k v := by
    unfold readPadded
    simp
  refine ⟨?_, ?_, ?_, ?_, ?_⟩
  · -- get before close returns the value
    rw [hset]
    unfold get
    simp only
    rw [mapGet_cons_self]
    simp only [Option.map_some']
    rw [hfileGet, hrp]
    have hdec := decodeKV_encodeKV ts k v [] hts hk hv
    rw [List.append_nil] at hdec
    rw [hdec]
  · -- the active segment file exceeds maxLogSize
    rw [hset]
    simp only
    rw [hfileGet]
    omega
  · rw [hset]
  · rw [hset]
  · -- reopen drops the oversized record
    rw [hset]
    simp only
    have hnames : ([(natName 1, []), (natName 2, encodeKV ts k v)].map
        (fun p : Bytes × Bytes => p.1)) = [natName 1, natName 2] := rfl
    have hkd := openD_keyDir [(natName 1, []), (natName 2, encodeKV ts k v)] max hm1 hm2
    have hsortc : sortNames [natName 1, natName 2] = [natName 1, natName 2] := by decide
    unfold get
    have hlk3 : lookupFile [(natName 1, []), (natName 2, encodeKV ts k v)] (natName 3)
        = none := by
      rw [lookupFile_cons_ne (natName 1) [] (natName 3) _ (by decide),
        lookupFile_cons_ne (natName 2) (encodeKV ts k v) (natName 3) _ (by decide)]
      rfl
    have hens : ensureFile [(natName 1, []), (natName 2, encodeKV ts k v)]
        (natName ((sortNames [natName 1, natName 2]).length + 1))
        = [(natName 1, []), (natName 2, encodeKV ts k v), (natName 3, [])] := by
      rw [hsortc]
      show ensureFile [(natName 1, []), (natName 2, encodeKV ts k v)] (natName 3) = _
      unfold ensureFile
      rw [hlk3]
      rfl
    have hget1 : fileGet [(natName 1, []), (natName 2, encodeKV ts k v), (natName 3, [])]
        (natName 1) = [] := by
      unfold fileGet
      rw [lookupFile_cons_self]
      rfl
    have hget2 : fileGet [(natName 1, []), (natName 2, encodeKV ts k v), (natName 3, [])]
        (natName 2) = encodeKV ts k v := by
      unfold fileGet
      rw [lookupFile_cons_ne (natName 1) [] (natName 2) _ (by decide),
        lookupFile_cons_self]
      rfl
    have hbuffer : readPadded (encodeKV ts k v) 0 max = (encodeKV ts k v).take max := by
      unfold readPadded
      simp only [List.drop_zero]
      have hlt : ((encodeKV ts k v).take max).length = max := by
        rw [List.length_take]
        omega
      rw [hlt]
      simp
    have hload : loadFile max [] (natName 2) (encodeKV ts k v) = [] := by
      unfold loadFile
      simp only
      have hbr : min max (encodeKV ts k v).length = max := by omega
      rw [hbr, if_neg (by omega), hbuffer]
      apply loadWalk_torn _ _ _ _ _ _ (by omega) (by omega)
      have hks : readLE ((encodeKV ts k v).take max) (0 + 8) 4 = k.length := by
        rw [readLE_take _ _ _ _ (by omega)]
        show readLE (encodeKV ts k v) 8 4 = k.length
        have h := readLE_enc_ks ts k v [] hk
        rw [List.append_nil] at h
        exact h
      have hvs : readLE ((encodeKV ts k v).take max) (0 + 12) 4 = v.length := by
        rw [readLE_take _ _ _ _ (by omega)]
        show readLE (encodeKV ts k v) 12 4 = v.length
        have h := readLE_enc_vs ts k v [] hv
        rw [List.append_nil] at h
        exact h
      rw [hks, hvs]
      omega
    rw [hkd, hnames, hsortc]
    simp only [List.foldl_cons, List.foldl_nil]
    rw [if_pos (show hasRun5 (natName 1) = true by decide),
      if_pos (show hasRun5 (natName 2) = true by decide)]
    rw [hsortc] at hens
    rw [hens] at *
    rw [hget1, loadFile_empty, hget2, hload]
    rfl

/-- Witness for c10_oversized_record_lost_on_reopen: a 1027-byte record
against a 1024-byte limit. -/
theorem c10_oversized_record_lost_on_reopen_witness :
    get (set (openD [] 1024) [107] (List.replicate 1010 97) 3) [107]
        = some (List.replicate 1010 97)
    ∧ get (openD (set (openD [] 1024) [107] (List.replicate 1010 97) 3).files 1024) [107]
        = none :=
  have h := c10_oversized_record_lost_on_reopen 1024 3 [107] (List.replicate 1010 97)
    (by norm_num) (by norm_num) (by simp) (by norm_num) (by norm_num) (by simp)
  ⟨h.1, h.2.2.2.2⟩

/-! Lemmas about file growth, used for the merge equivalence proof. -/

theorem readPadded_length (f : Bytes) (p l : Nat) :
    (readPadded f p l).length = l := by
  unfold readPadded
  simp only [List.length_append, List.length_replicate]
  have : ((f.drop p).take l).length ≤ l := by
    rw [List.length_take]; omega
  omega

theorem readPadded_eq_slice (f : Bytes) (pos sz : Nat)
    (h : pos + sz ≤ f.length) : readPadded f pos sz = slice f pos (pos + sz) := by
  have hlen : ((f.drop pos).take sz).length = sz := by
    rw [List.length_take, List.length_drop]; omega
  unfold readPadded slice
  show (f.drop pos).take sz ++ List.replicate (sz - ((f.drop pos).take sz).length) 0
      = (f.drop pos).take (pos + sz - pos)
  rw [hlen, Nat.sub_self, List.replicate_zero, List.append_nil]
  congr 1
  omega

theorem slice_append_exact (x y : Bytes) :
    slice (x ++ y) x.length (x.length + y.length) = y := by
  unfold slice
  rw [List.drop_left]
  have : x.length + y.length - x.length = y.length := by omega
  rw [this, List.take_length]

theorem slice_append_left (x y : Bytes) (pos sz : Nat)
    (h : pos + sz ≤ x.length) :
    slice (x ++ y) pos (pos + sz) = slice x pos (pos + sz) := by
  unfold slice
  rw [List.drop_append_eq_append_drop]
  have h0 : pos - x.length = 0 := by omega
  rw [h0, List.drop_zero, List.take_append_eq_append_take]
  have h1 : pos + sz - pos - (x.drop pos).length = 0 := by
    rw [List.length_drop]; omega
  rw [h1, List.take_zero, List.append_nil]

theorem fileGet_fileAppend_self (fs : Files) (n d : Bytes) :
    fileGet (fileAppend fs n d) n = fileGet fs n ++ d := by
  induction fs with
  | nil =>
    unfold fileAppend fileGet
    rw [lookupFile_cons, if_pos rfl, lookupFile_nil]
    rfl
  | cons p rest ih =>
    unfold fileAppend
    by_cases hp : p.1 = n
    · unfold fileGet
      rw [if_pos hp, lookupFile_cons, lookupFile_cons, if_pos hp, if_pos hp]
      rfl
    · rw [if_neg hp]
      unfold fileGet
      rw [lookupFile_cons, lookupFile_cons, if_neg hp, if_neg hp]
      exact ih

theorem lookupFile_fileAppend_ne (fs : Files) (n d c : Bytes) (h : ¬ c = n) :
    lookupFile (fileAppend fs n d) c = lookupFile fs c := by
  induction fs with
  | nil =>
    unfold fileAppend
    rw [lookupFile_cons, lookupFile_nil, if_neg (fun he => h he.symm)]
  | cons p rest ih =>
    unfold fileAppend
    by_cases hp : p.1 = n
    · rw [if_pos hp, lookupFile_cons, lookupFile_cons]
      simp only
      by_cases hc : p.1 = c
      · exact absurd (hc.symm.trans hp) h
      · rw [if_neg hc, if_neg hc]
    · rw [if_neg hp, lookupFile_cons, lookupFile_cons]
      by_cases hc : p.1 = c
      · rw [if_pos hc, if_pos hc]
      · rw [if_neg hc, if_neg hc]
        exact ih

theorem fileGet_fileAppend_ne (fs : Files) (n d c : Bytes) (h : ¬ c = n) :
    fileGet (fileAppend fs n d) c = fileGet fs c := by
  unfold fileGet
  rw [lookupFile_fileAppend_ne fs n d c h]

theorem fileGet_ensure (fs : Files) (n c : Bytes) :
    fileGet (ensureFile fs n) c = fileGet fs c := by
  unfold ensureFile
  split
  · rfl
  · rename_i hnone
    by_cases hc : c = n
    · subst hc
      unfold fileGet
      rw [lookupFile_append_none _ _ _ (by
          cases hlk : lookupFile fs c with
          | none => rfl
          | some v => rw [hlk] at hnone; simp at hnone),
        lookupFile_cons, if_pos rfl]
      cases hlk : lookupFile fs c with
      | none => rfl
      | some v => rw [hlk] at hnone; simp at hnone
    · unfold fileGet
      cases hlk : lookupFile fs c with
      | none =>
        rw [lookupFile_append_none _ _ _ hlk, lookupFile_cons,
          if_neg (fun he => hc he.symm), lookupFile_nil]
      | some v =>
        rw [lookupFile_append_some _ _ _ _ hlk]

theorem lookupFile_ensure_ne (fs : Files) (n c : Bytes) (h : ¬ c = n) :
    lookupFile (ensureFile fs n) c = lookupFile fs c := by
  unfold ensureFile
  split
  · rfl
  · cases hlk : lookupFile fs c with
    | none =>
      rw [lookupFile_append_none _ _ _ hlk, lookupFile_cons,
        if_neg (fun he => h he.symm), lookupFile_nil]
    | some v => rw [lookupFile_append_some _ _ _ _ hlk]

theorem lookupFile_fileRemove_ne (fs : Files) (names : List Bytes) (c : Bytes)
    (h : c ∉ names) :
    lookupFile (fileRemove fs names) c = lookupFile fs c := by
  induction fs with
  | nil => rfl
  | cons p rest ih =>
    unfold fileRemove
    rw [List.filter_cons]
    by_cases hp : p.1 ∈ names
    · rw [if_neg (by simp [hp])]
      rw [lookupFile_cons, if_neg (fun he => h (by rw [← he]; exact hp))]
      exact ih
    · rw [if_pos (by simp [hp])]
      rw [lookupFile_cons, lookupFile_cons]
      by_cases hc : p.1 = c
      · rw [if_pos hc, if_pos hc]
      · rw [if_neg hc, if_neg hc]
        exact ih

theorem fileGet_fileRemove_ne (fs : Files) (names : List Bytes) (c : Bytes)
    (h : c ∉ names) :
    fileGet (fileRemove fs names) c = fileGet fs c := by
  unfold fileGet
  rw [lookupFile_fileRemove_ne fs names c h]

theorem mapSet_append_not_mem (l1 l2 : KeyDir) (k : Bytes) (e v : KeyEntry)
    (h : ∀ p ∈ l1, ¬ p.1 = k) :
    mapSet (l1 ++ (k, e) :: l2) k v = l1 ++ (k, v) :: l2 := by
  induction l1 with
  | nil =>
    simp only [List.nil_append]
    unfold mapSet
    rw [if_pos rfl]
  | cons p rest ih =>
    simp only [List.cons_append]
    unfold mapSet
    rw [if_neg (h p (by simp))]
    rw [ih (fun q hq => h q (by simp [hq]))]

theorem forall₂_map_fst {R : Bytes × KeyEntry → Bytes × KeyEntry → Prop}
    (hR : ∀ p q, R p q → q.1 = p.1) :
    ∀ {l1 l2 : KeyDir}, List.Forall₂ R l1 l2 → l2.map (·.1) = l1.map (·.1) := by
  intro l1 l2 h
  induction h with
  | nil => rfl
  | cons hpq _ ih => simp only [List.map_cons, ih, hR _ _ hpq]

theorem forall₂_mapGet {R : Bytes × KeyEntry → Bytes × KeyEntry → Prop}
    (hR : ∀ p q, R p q → q.1 = p.1) :
    ∀ {l1 l2 : KeyDir}, List.Forall₂ R l1 l2 → ∀ k : Bytes,
      (mapGet l1 k = none ∧ mapGet l2 k = none)
      ∨ ∃ e e', mapGet l1 k = some e ∧ mapGet l2 k = some e'
          ∧ R (k, e) (k, e') := by
  intro l1 l2 h
  induction h with
  | nil => intro k; left; exact ⟨rfl, rfl⟩
  | @cons p q l1' l2' hpq htail ih =>
    intro k
    by_cases hk : p.1 = k
    · right
      refine ⟨p.2, q.2, ?_, ?_, ?_⟩
      · rw [mapGet_cons, if_pos hk]
      · rw [mapGet_cons, if_pos ((hR p q hpq).trans hk)]
      · have hp : p = (k, p.2) := Prod.ext hk rfl
        have hq : q = (k, q.2) := Prod.ext ((hR p q hpq).trans hk) rfl
        rw [hp, hq] at hpq
        exact hpq
    · rcases ih k with ⟨h1, h2⟩ | ⟨e, e', h1, h2, h3⟩
      · left
        constructor
        · rw [mapGet_cons, if_neg hk]; exact h1
        · rw [mapGet_cons, if_neg (fun he => hk ((hR p q hpq).symm.trans he))]
          exact h2
      · right
        refine ⟨e, e', ?_, ?_, h3⟩
        · rw [mapGet_cons, if_neg hk]; exact h1
        · rw [mapGet_cons, if_neg (fun he => hk ((hR p q hpq).symm.trans he))]
          exact h2

/-- mergeRel survives opening a fresh file and bumping the counter. -/
theorem mergeRel_ensure (srcFiles : Files) (oldLen : Nat) (F : Files)
    (c c' : Nat) (n : Bytes) (hcc : c ≤ c')
    (p q : Bytes × KeyEntry) (h : mergeRel srcFiles oldLen F c p q) :
    mergeRel srcFiles oldLen (ensureFile F n) c' p q := by
  obtain ⟨h1, ⟨m, hm1, hm2, hm3⟩, h3, h4⟩ := h
  refine ⟨h1, ⟨m, hm1, by omega, hm3⟩, ?_, ?_⟩
  · rw [fileGet_ensure]; exact h3
  · rw [fileGet_ensure]; exact h4

/-- mergeRel survives appending to the current output segment: an append
at the end of a file never disturbs an existing in-range slice, and an
append to a different file never disturbs it either. -/
theorem mergeRel_append (srcFiles : Files) (oldLen hi : Nat)
    (HD : ∀ m1 m2, oldLen < m1 → m1 < m2 → m2 ≤ hi → natName m1 ≠ natName m2)
    (F : Files) (c : Nat) (hchi : c ≤ hi) (d : Bytes)
    (p q : Bytes × KeyEntry) (h : mergeRel srcFiles oldLen F c p q) :
    mergeRel srcFiles oldLen (fileAppend F (natName c) d) c p q := by
  obtain ⟨h1, ⟨m, hm1, hm2, hm3⟩, h3, h4⟩ := h
  by_cases hmc : m = c
  · subst hmc
    rw [hm3] at h3 h4
    refine ⟨h1, ⟨m, hm1, Nat.le_refl m, hm3⟩, ?_, ?_⟩
    · rw [hm3, fileGet_fileAppend_self, List.length_append]
      omega
    · rw [hm3, fileGet_fileAppend_self, slice_append_left _ _ _ _ h3]
      exact h4
  · have hne : ¬ q.2.filename = natName c := by
      rw [hm3]
      exact HD m c hm1 (by omega) hchi
    refine ⟨h1, ⟨m, hm1, hm2, hm3⟩, ?_, ?_⟩
    · rw [fileGet_fileAppend_ne _ _ _ _ hne]; exact h3
    · rw [fileGet_fileAppend_ne _ _ _ _ hne]; exact h4

/-- The merge loop invariant: folding mergeStep over the unprocessed
entries keeps the counter in range, leaves all non-output files as they
were on disk, and rewrites the key directory so that every entry
corresponds to its original through mergeRel. -/
theorem mergeLoop_inv (max : Nat) (srcFiles : Files) (oldLen hi : Nat)
    (HD : ∀ m1 m2, oldLen < m1 → m1 < m2 → m2 ≤ hi → natName m1 ≠ natName m2) :
    ∀ (rest origDone done : KeyDir) (acc : MAcc),
    (∀ p ∈ rest, ∀ m, oldLen < m → m ≤ hi → p.2.filename ≠ natName m) →
    oldLen < acc.counter →
    acc.counter + rest.length + 1 ≤ hi →
    (fileGet acc.files (natName acc.counter)).length = acc.cursor →
    (∀ n, (∀ m, oldLen < m → m ≤ hi → n ≠ natName m) →
        lookupFile acc.files n = lookupFile srcFiles n) →
    (∀ m, acc.counter < m → m ≤ hi → lookupFile acc.files (natName m) = none) →
    acc.keyDir = done ++ rest →
    ((done ++ rest).map (·.1)).Nodup →
    List.Forall₂ (mergeRel srcFiles oldLen acc.files acc.counter) origDone done →
    (oldLen < (rest.foldl (mergeStep max) acc).counter
      ∧ (rest.foldl (mergeStep max) acc).counter + 1 ≤ hi)
    ∧ List.Forall₂ (mergeRel srcFiles oldLen
        (rest.foldl (mergeStep max) acc).files
        (rest.foldl (mergeStep max) acc).counter)
      (origDone ++ rest) (rest.foldl (mergeStep max) acc).keyDir := by
  intro rest
  induction rest with
  | nil =>
    intro origDone done acc hrestf hc1 hc2 hcur hsrc hout hkd hnd hrel
    simp only [List.foldl_nil, List.append_nil]
    refine ⟨⟨hc1, by simp at hc2; omega⟩, ?_⟩
    rw [hkd, List.append_nil]
    exact hrel
  | cons hd rest' ih =>
    intro origDone done acc hrestf hc1 hc2 hcur hsrc hout hkd hnd hrel
    obtain ⟨k, e⟩ := hd
    have hheadf : ∀ m, oldLen < m → m ≤ hi → e.filename ≠ natName m := by
      intro m hm1 hm2
      exact hrestf (k, e) (by simp) m hm1 hm2
    have hfg : fileGet acc.files e.filename = fileGet srcFiles e.filename := by
      unfold fileGet
      rw [hsrc e.filename (fun m hm1 hm2 => hheadf m hm1 hm2)]
    have hkdone : ∀ p ∈ done, ¬ p.1 = k := by
      intro p hp hpk
      have hnd2 := hnd
      rw [List.map_append] at hnd2
      rcases (List.nodup_append.mp hnd2) with ⟨_, _, hdisj⟩
      exact hdisj (List.mem_map_of_mem _ hp) (by
        rw [List.map_cons]
        exact hpk ▸ List.mem_cons_self _ _)
    -- the common continuation, for both rollover and direct append
    have hcont : ∀ (F1 : Files) (c1 cur1 : Nat),
        mergeStep max acc (k, e) =
          { files := fileAppend F1 (natName c1)
              (readPadded (fileGet srcFiles e.filename) e.position e.size)
            counter := c1
            cursor := cur1 + (readPadded (fileGet srcFiles e.filename)
              e.position e.size).length
            keyDir := mapSet acc.keyDir k
              { filename := natName c1, position := cur1
                size := (readPadded (fileGet srcFiles e.filename)
                  e.position e.size).length
                timestamp := e.timestamp } } →
        oldLen < c1 →
        c1 + rest'.length + 1 ≤ hi →
        (fileGet F1 (natName c1)).length = cur1 →
        (∀ n, (∀ m, oldLen < m → m ≤ hi → n ≠ natName m) →
            lookupFile F1 n = lookupFile srcFiles n) →
        (∀ m, c1 < m → m ≤ hi → lookupFile F1 (natName m) = none) →
        List.Forall₂ (mergeRel srcFiles oldLen F1 c1) origDone done →
        (oldLen < (((k, e) :: rest').foldl (mergeStep max) acc).counter
          ∧ (((k, e) :: rest').foldl (mergeStep max) acc).counter + 1 ≤ hi)
        ∧ List.Forall₂ (mergeRel srcFiles oldLen
            (((k, e) :: rest').foldl (mergeStep max) acc).files
            (((k, e) :: rest').foldl (mergeStep max) acc).counter)
          (origDone ++ (k, e) :: rest')
          (((k, e) :: rest').foldl (mergeStep max) acc).keyDir := by
      intro F1 c1 cur1 heq hcc1 hcc2 hcur1 hsrc1 hout1 hrel1
      have hc1hi : c1 ≤ hi := by omega
      set buff := readPadded (fileGet srcFiles e.filename) e.position e.size with hbuff
      set newE : KeyEntry :=
        { filename := natName c1, position := cur1
          size := buff.length, timestamp := e.timestamp } with hnewE
      rw [List.foldl_cons, heq]
      have hkd2 : mapSet acc.keyDir k newE = (done ++ [(k, newE)]) ++ rest' := by
        rw [hkd, mapSet_append_not_mem done rest' k e newE hkdone]
        simp
      have happly := ih (origDone ++ [(k, e)]) (done ++ [(k, newE)])
        { files := fileAppend F1 (natName c1) buff
          counter := c1
          cursor := cur1 + buff.length
          keyDir := mapSet acc.keyDir k newE }
        (fun p hp m hm1 hm2 => hrestf p (by simp [hp]) m hm1 hm2)
        hcc1
        (by simp only; omega)
        (by
          simp only
          rw [fileGet_fileAppend_self, List.length_append, hcur1])
        (by
          intro n hn
          simp only
          rw [lookupFile_fileAppend_ne _ _ _ _ (hn c1 hcc1 (by omega))]
          exact hsrc1 n hn)
        (by
          intro m hm1 hm2
          simp only
          rw [lookupFile_fileAppend_ne _ _ _ _
            (fun he => (HD c1 m hcc1 hm1 hm2) he.symm)]
          exact hout1 m hm1 hm2)
        (by simp only; exact hkd2)
        (by
          have : ((done ++ [(k, newE)]) ++ rest').map (·.1)
              = (done ++ (k, e) :: rest').map (·.1) := by
            simp
          rw [this]
          exact hnd)
        (by
          simp only
          apply List.rel_append
          · exact List.Forall₂.imp
              (fun p q hpq => mergeRel_append srcFiles oldLen hi HD F1 c1
                (by omega) buff p q hpq) hrel1
          · refine List.Forall₂.cons ?_ List.Forall₂.nil
            refine ⟨rfl, ⟨c1, hcc1, le_refl c1, rfl⟩, ?_, ?_⟩
            · show newE.position + newE.size
                ≤ (fileGet (fileAppend F1 (natName c1) buff) newE.filename).length
              rw [hnewE]
              simp only
              rw [fileGet_fileAppend_self, List.length_append, hcur1]
            · show slice (fileGet (fileAppend F1 (natName c1) buff) newE.filename)
                  newE.position (newE.position + newE.size)
                = readPadded (fileGet srcFiles e.filename) e.position e.size
              rw [hnewE]
              simp only
              rw [fileGet_fileAppend_self, ← hcur1, slice_append_exact])
      rcases happly with ⟨hbounds, hrel2⟩
      refine ⟨hbounds, ?_⟩
      have : origDone ++ [(k, e)] ++ rest' = origDone ++ (k, e) :: rest' := by simp
      rw [← this]
      exact hrel2
    by_cases hroll : acc.cursor
        + bytesReadOf (fileGet acc.files e.filename) e.position e.size > max
    · -- rollover before this record
      have hnone : lookupFile acc.files (natName (acc.counter + 1)) = none :=
        hout (acc.counter + 1) (by omega) (by simp at hc2; omega)
      apply hcont (ensureFile acc.files (natName (acc.counter + 1)))
        (acc.counter + 1) 0
      · show mergeStep max acc (k, e) = _
        unfold mergeStep
        rw [if_pos hroll]
        rw [hfg]
      · omega
      · simp at hc2; omega
      · rw [fileGet_ensure]
        unfold fileGet
        rw [hnone]
        rfl
      · intro n hn
        rw [lookupFile_ensure_ne _ _ _ (hn (acc.counter + 1) (by omega)
          (by simp at hc2; omega))]
        exact hsrc n hn
      · intro m hm1 hm2
        rw [lookupFile_ensure_ne _ _ _
          (fun he => (HD (acc.counter + 1) m (by omega) hm1 hm2) he.symm)]
        exact hout m (by omega) hm2
      · exact List.Forall₂.imp
          (fun p q hpq => mergeRel_ensure srcFiles oldLen acc.files
            acc.counter (acc.counter + 1) _ (by omega) p q hpq) hrel
    · -- the record still fits in the current output segment
      apply hcont acc.files acc.counter acc.cursor
      · show mergeStep max acc (k, e) = _
        unfold mergeStep
        rw [if_neg hroll]
        rw [hfg]
      · exact hc1
      · simp at hc2; omega
      · exact hcur
      · exact hsrc
      · exact hout
      · exact hrel

/-- C5 (amended): merge is observationally neutral.  For every engine
state whose directory keys are unique and reference existing files, and
whose prospective merge-output names are fresh (not on disk, not among
the pre-merge segment names, not referenced by the directory, and
pairwise distinct - true of every state the engine itself builds, since
segment names are zero-padded decimals of bounded counters), listKeys
and get agree before and after merge for every key.  The file-count half
of the original claim is refuted by c5_merge_filecount_counterexample. -/
theorem c5_merge_preserves_view (s : CaskState)
    (hnd : (s.keyDir.map (·.1)).Nodup)
    (_hexists : ∀ p ∈ s.keyDir, (lookupFile s.files p.2.filename).isSome = true)
    (HF : ∀ m, m ≤ s.casks.length + s.keyDir.length + 3 → s.casks.length + 1 < m →
        lookupFile s.files (natName m) = none
        ∧ natName m ∉ (s.casks ++ [s.currentCask])
        ∧ ∀ p ∈ s.keyDir, p.2.filename ≠ natName m)
    (HD : ∀ m2, m2 ≤ s.casks.length + s.keyDir.length + 3 →
        ∀ m1, m1 < m2 → s.casks.length + 1 < m1 → natName m1 ≠ natName m2) :
    listKeys (merge s) = listKeys s
    ∧ ∀ k, get (merge s) k = get s k := by
  have holdLen : (s.casks ++ [s.currentCask]).length = s.casks.length + 1 := by
    simp
  set oldLen := (s.casks ++ [s.currentCask]).length with holdDef
  set hi := oldLen + s.keyDir.length + 2 with hhiDef
  have hhi : hi = s.casks.length + s.keyDir.length + 3 := by omega
  have HD' : ∀ m1 m2, oldLen < m1 → m1 < m2 → m2 ≤ hi → natName m1 ≠ natName m2 := by
    intro m1 m2 h1 h2 h3
    exact HD m2 (by omega) m1 h2 (by omega)
  have hfirst : lookupFile s.files (natName (oldLen + 1)) = none :=
    (HF (oldLen + 1) (by omega) (by omega)).1
  have hinv := mergeLoop_inv s.maxLogSize s.files oldLen hi HD'
    s.keyDir [] [] (mergeAcc0 s)
    (fun p hp m hm1 hm2 => (HF m (by omega) (by omega)).2.2 p hp)
    (by show oldLen < (s.casks ++ [s.currentCask]).length + 1; omega)
    (by show (s.casks ++ [s.currentCask]).length + 1 + s.keyDir.length + 1 ≤ hi; omega)
    (by
      show (fileGet (ensureFile s.files (natName ((s.casks ++ [s.currentCask]).length + 1)))
        (natName ((s.casks ++ [s.currentCask]).length + 1))).length = 0
      rw [fileGet_ensure]
      unfold fileGet
      rw [show (s.casks ++ [s.currentCask]).length + 1 = oldLen + 1 from rfl, hfirst]
      rfl)
    (by
      intro n hn
      show lookupFile (ensureFile s.files (natName ((s.casks ++ [s.currentCask]).length + 1))) n
        = lookupFile s.files n
      exact lookupFile_ensure_ne _ _ _ (hn (oldLen + 1) (by omega) (by omega)))
    (by
      intro m hm1 hm2
      show lookupFile (ensureFile s.files (natName ((s.casks ++ [s.currentCask]).length + 1)))
        (natName m) = none
      have hm1' : (s.casks ++ [s.currentCask]).length + 1 < m := hm1
      rw [lookupFile_ensure_ne _ _ _
        (fun he => (HD' (oldLen + 1) m (by omega) (by omega) hm2) he.symm)]
      exact (HF m (by omega) (by omega)).1)
    (by show s.keyDir = [] ++ s.keyDir; rfl)
    (by simpa using hnd)
    List.Forall₂.nil
  rcases hinv with ⟨⟨hcnt1, hcnt2⟩, hrelF⟩
  simp only [List.nil_append] at hrelF
  have haccF : s.keyDir.foldl (mergeStep s.maxLogSize) (mergeAcc0 s) = mergeAccOf s := rfl
  rw [haccF] at hcnt1 hcnt2 hrelF
  have hfst : ∀ p q, mergeRel s.files oldLen (mergeAccOf s).files
      (mergeAccOf s).counter p q → q.1 = p.1 := fun p q h => h.1
  have hkeys : (merge s).keyDir = (mergeAccOf s).keyDir := rfl
  constructor
  · unfold listKeys
    rw [hkeys]
    exact forall₂_map_fst hfst hrelF
  · intro k
    have hfiles : (merge s).files
        = ensureFile (fileRemove (mergeAccOf s).files (s.casks ++ [s.currentCask]))
          (natName ((mergeAccOf s).counter + 1)) := rfl
    rcases forall₂_mapGet hfst hrelF k with ⟨h1, h2⟩ | ⟨e, e', h1, h2, h3⟩
    · unfold get
      rw [hkeys, h1, h2]
      rfl
    · obtain ⟨heq1, ⟨m, hm1, hm2, hm3⟩, hle, hslice⟩ := h3
      have hm3' : e'.filename = natName m := hm3
      have hle' : e'.position + e'.size
          ≤ (fileGet (mergeAccOf s).files e'.filename).length := hle
      have hslice' : slice (fileGet (mergeAccOf s).files e'.filename)
            e'.position (e'.position + e'.size)
          = readPadded (fileGet s.files e.filename) e.position e.size := hslice
      unfold get
      rw [hkeys, h1, h2]
      simp only [Option.map_some']
      have hnotold : natName m ∉ (s.casks ++ [s.currentCask]) :=
        (HF m (by omega) (by omega)).2.1
      have hmerged : fileGet (merge s).files e'.filename
          = fileGet (mergeAccOf s).files e'.filename := by
        rw [hfiles, fileGet_ensure, hm3',
          fileGet_fileRemove_ne _ _ _ hnotold]
      rw [hmerged]
      rw [readPadded_eq_slice _ _ _ hle', hslice']

/-- Witness for c5_merge_preserves_view at the concrete two-segment
state sPreMerge. -/
theorem c5_merge_preserves_view_witness :
    listKeys (merge sPreMerge) = listKeys sPreMerge
    ∧ get (merge sPreMerge) [107, 49] = get sPreMerge [107, 49] :=
  have h := c5_merge_preserves_view sPreMerge (by decide) (by decide) (by decide) (by decide)
  ⟨h.1, h.2 [107, 49]⟩

/-- Witness for c9_open_foreign_entry: adding the foreign file A to a
directory holding one segment with one record leaves replay unchanged
and bumps the active id. -/
theorem c9_open_foreign_entry_witness :
    (openD ([(natName 1, encodeKV 7 keyFoo [118])] ++ [([65], [9, 9])] ++ []) 1024).keyDir
      = (openD ([(natName 1, encodeKV 7 keyFoo [118])] ++ []) 1024).keyDir
    ∧ (openD ([(natName 1, encodeKV 7 keyFoo [118])] ++ [([65], [9, 9])] ++ []) 1024).currentCask
      = natName (([(natName 1, encodeKV 7 keyFoo [118])] ++ [([65], [9, 9])] ++ []).length + 1) :=
  c9_open_foreign_entry [(natName 1, encodeKV 7 keyFoo [118])] [] ([65], [9, 9]) 1024
    (by norm_num) (by norm_num) (by decide)

end CaskDB
